import Mathlib

/-!
Verification of the context-propagation engine of `log-args-runtime`
(file `src/log-args-runtime/src/lib.rs`).

The engine keeps three layers of key-value context:
a sync frame stack (`CONTEXT_STACK`, thread local), an async frame stack
(`ASYNC_CONTEXT_STACK`, task local) and a process-wide global store
(`GLOBAL_CONTEXT`, behind a mutex).  Rust `HashMap<String, String>` values
are modelled as association lists in iteration order; a map reachable from
the real code always has pairwise distinct keys (`keysNodup` below), which
theorems assume where the first/last occurrence distinction could matter.
A state of the engine is captured by `EngineState`: the two stacks (oldest
frame first, as in the `Vec`s of the source), the global map, and whether
the global mutex is poisoned (`GLOBAL_CONTEXT.lock()` returning `Err`).
Each Rust function becomes a pure function of this state; functions that
mutate the state become state transformers.
-/

namespace LogArgs

/-- A context map: Rust `HashMap<String, String>` in iteration order. -/
abbrev Ctx := List (String × String)

/-- Rust `HashMap::get`: the value of the (unique) entry with the given key
(the first matching entry of the association list). -/
def ctxGet : Ctx → String → Option String
  | [], _ => none
  | p :: m, k => if p.1 = k then some p.2 else ctxGet m k

/-- Rust `HashMap::insert`: replace any entry with the key, add the pair.
(The real map's iteration order is unspecified; this model removes the old
entry and appends, which agrees on every `ctxGet`.) -/
def ctxInsert (m : Ctx) (k v : String) : Ctx :=
  (m.filter (fun p => !(p.1 == k))) ++ [(k, v)]

/-- Rust `HashMap::extend`: insert every pair of `m` into `acc`. -/
def ctxExtend (acc m : Ctx) : Ctx :=
  m.foldl (fun a p => ctxInsert a p.1 p.2) acc

/-- The invariant every map reachable from a real `HashMap` has: keys are
pairwise distinct. -/
def keysNodup (m : Ctx) : Prop :=
  (m.map Prod.fst).Nodup

instance (m : Ctx) : Decidable (keysNodup m) := by
  unfold keysNodup; infer_instance

/-- One state of the engine: `ASYNC_CONTEXT_STACK`, `CONTEXT_STACK` (both
oldest frame first, the last element is the innermost frame, as in the
source's `Vec<HashMap<..>>`), the `GLOBAL_CONTEXT` map, and whether the
global mutex is poisoned. -/
structure EngineState where
  asyncStack : List Ctx
  syncStack : List Ctx
  global : Ctx
  poisoned : Bool
deriving DecidableEq

/-- The scanning loop of `get_context_value` (lib.rs lines 80-84 and 90-94):
walk a list of frames and return the first frame's value for the key.  The
source walks `stack.iter().rev()`, so callers pass the stack reversed
(innermost frame first). -/
def scanFrames (k : String) : List Ctx → Option String
  | [] => none
  | m :: rest =>
    match ctxGet m k with
    | some v => some v
    | none => scanFrames k rest

/-- The global-store read of `get_context_value` (lib.rs lines 102-109):
under the lock, `global.get(key)`; a poisoned lock yields `None`. -/
def globalLayerGet (s : EngineState) (k : String) : Option String :=
  if s.poisoned then none else ctxGet s.global k

/-- `get_context_value` (lib.rs lines 77-110): try the async stack innermost
first, then the sync stack innermost first, then the global store. -/
def get_context_value (s : EngineState) (k : String) : Option String :=
  match scanFrames k s.asyncStack.reverse with
  | some v => some v
  | none =>
    match scanFrames k s.syncStack.reverse with
    | some v => some v
    | none => globalLayerGet s k

/-- `get_context` (lib.rs lines 114-124): fold the sync stack bottom-to-top,
`extend`ing an empty map with each frame.  This is the map the `info!` /
`warn!` / `error!` / `debug!` / `trace!` macros attach to each log event
(lib.rs lines 224-257 pass `$crate::get_context()` to `log_with_context!`). -/
def get_context (s : EngineState) : Ctx :=
  s.syncStack.foldl (fun acc c => ctxExtend acc c) []

/-- `get_async_context` (lib.rs lines 127-139): same fold over the async
stack (an inaccessible task-local yields the default, the empty map; the
accessible case is modelled). -/
def get_async_context (s : EngineState) : Ctx :=
  s.asyncStack.foldl (fun acc c => ctxExtend acc c) []

/-- `set_global_context` (lib.rs lines 42-46): insert under the lock; a
poisoned lock makes it a silent no-op. -/
def set_global_context (s : EngineState) (k v : String) : EngineState :=
  if s.poisoned then s
  else EngineState.mk s.asyncStack s.syncStack (ctxInsert s.global k v) s.poisoned

/-- `get_global_context` (lib.rs lines 49-56): under the lock, a clone of
the map when it is non-empty, otherwise `None`; a poisoned lock yields
`None`. -/
def get_global_context (s : EngineState) : Option Ctx :=
  if s.poisoned then none
  else if s.global.isEmpty then none else some s.global

/-- `push_context` (lib.rs lines 150-155): push a frame on the sync stack
(the returned `ContextGuard` is modelled by `contextGuardDrop` below). -/
def push_context (s : EngineState) (c : Ctx) : EngineState :=
  EngineState.mk s.asyncStack (s.syncStack ++ [c]) s.global s.poisoned

/-- `push_async_context` (lib.rs lines 159-164): push a frame on the async
stack. -/
def push_async_context (s : EngineState) (c : Ctx) : EngineState :=
  EngineState.mk (s.asyncStack ++ [c]) s.syncStack s.global s.poisoned

/-- `impl Drop for ContextGuard` (lib.rs lines 68-74): `Vec::pop` on the
sync stack — removes the last frame, a no-op on an empty stack. -/
def contextGuardDrop (s : EngineState) : EngineState :=
  EngineState.mk s.asyncStack s.syncStack.dropLast s.global s.poisoned

/-- `impl Drop for AsyncContextGuard` (lib.rs lines 169-175): `Vec::pop` on
the async stack. -/
def asyncContextGuardDrop (s : EngineState) : EngineState :=
  EngineState.mk s.asyncStack.dropLast s.syncStack s.global s.poisoned

/-- `auto_capture_context` (lib.rs lines 261-270) as a state transformer for
the whole call: read `get_context()`, push it on both stacks, and — because
the two guards are bound to the locals `_async_guard` and `_sync_guard` —
drop both pushed frames again when the function returns (locals drop in
reverse declaration order: the sync guard, then the async guard).  The
`ContextGuard` value the function returns is a fresh empty struct whose
drop is `contextGuardDrop`. -/
def auto_capture_context (s : EngineState) : EngineState :=
  let cc := get_context s
  let s1 := push_async_context s cc
  let s2 := push_context s1 cc
  asyncContextGuardDrop (contextGuardDrop s2)

/-- `capture_context` (lib.rs lines 274-291) as a state transformer for the
whole call: merge the async and sync folds (sync extended over async, so
sync wins on a conflict), publish every pair of the merge into the global
store, push the merge on both stacks, and — as in `auto_capture_context` —
drop both pushed frames again when the locals `_sync_guard` and
`_async_guard` go out of scope at return. -/
def capture_context (s : EngineState) : EngineState :=
  let cc := ctxExtend (get_async_context s) (get_context s)
  let s1 := cc.foldl (fun st p => set_global_context st p.1 p.2) s
  let s2 := push_async_context s1 cc
  let s3 := push_context s2 cc
  asyncContextGuardDrop (contextGuardDrop s3)

/-- Rust `str::starts_with` on character sequences: `charsStartWith pre cs`
is true when `pre` is an initial segment of `cs`. -/
def charsStartWith : List Char → List Char → Bool
  | [], _ => true
  | _ :: _, [] => false
  | a :: xs, b :: ys => a == b && charsStartWith xs ys

/-- `p.starts_with(pre)` for strings. -/
def startsWithStr (p pre : String) : Bool :=
  charsStartWith pre.data p.data

/-- The push step of `get_inherited_context_string` (lib.rs lines 311-319
and 328-337): skip the reserved key `"function"`, skip a key some existing
part already starts with (`{key}=`), otherwise append `{key}={value}`. -/
def addPart (ps : List String) (k v : String) : List String :=
  if k = "function" then ps
  else if ps.any (fun p => startsWithStr p (k ++ "=")) then ps
  else ps ++ [k ++ "=" ++ v]

/-- One stack's loop of `get_inherited_context_string` (lib.rs lines
308-339): walk the given frames in order (callers pass the stack reversed,
innermost first) and within each frame every pair, `addPart`ing each. -/
def stackParts (ps : List String) (frames : List Ctx) : List String :=
  frames.foldl (fun acc m => m.foldl (fun a p => addPart a p.1 p.2) acc) ps

/-- The global fallback loop of `get_inherited_context_string` (lib.rs
lines 342-350): every non-`"function"` pair of the global snapshot, with no
de-duplication check (the parts list is empty when this runs). -/
def globalParts (g : Ctx) : List String :=
  g.foldl (fun acc p => if p.1 = "function" then acc else acc ++ [p.1 ++ "=" ++ p.2]) []

/-- The parts list `get_inherited_context_string` builds (lib.rs lines
296-350): async stack innermost first, then sync stack innermost first;
when both contribute nothing, the global snapshot. -/
def inheritedParts (s : EngineState) : List String :=
  let ps := stackParts (stackParts [] s.asyncStack.reverse) s.syncStack.reverse
  if ps.isEmpty then
    match get_global_context s with
    | some g => globalParts g
    | none => []
  else ps

/-- `get_inherited_context_string` (lib.rs lines 296-357): the parts joined
with `","`, the empty string when there are none. -/
def get_inherited_context_string (s : EngineState) : String :=
  let ps := inheritedParts s
  if ps.isEmpty then "" else String.intercalate "," ps

/-- The per-frame insertion loop of `get_inherited_fields_map` (lib.rs
lines 367-372 and 383-388): insert every non-`"function"` pair of the frame
into the accumulated map. -/
def frameFields (acc : Ctx) (m : Ctx) : Ctx :=
  m.foldl (fun a p => if p.1 = "function" then a else ctxInsert a p.1 p.2) acc

/-- The stack walk of `get_inherited_fields_map` (lib.rs lines 365-395):
process frames innermost first, returning as soon as the accumulated map is
non-empty after a frame. -/
def fieldsScan (acc : Ctx) : List Ctx → Ctx
  | [] => acc
  | m :: rest =>
    let acc2 := frameFields acc m
    if acc2.isEmpty then fieldsScan acc2 rest else acc2

/-- `get_inherited_fields_map` (lib.rs lines 361-398): scan the async stack
innermost first; only when that leaves the map empty, scan the sync stack
the same way.  The global store is never consulted. -/
def get_inherited_fields_map (s : EngineState) : Ctx :=
  let cm := fieldsScan [] s.asyncStack.reverse
  if cm.isEmpty then fieldsScan cm s.syncStack.reverse else cm

/-!  Specification-side definitions, written from the claims' words, to be
compared with the embedded code. -/

/-- The value of the innermost frame of the stack that defines the key
(frames are stored oldest first, so the innermost is found by scanning the
reversed stack for the first frame whose map defines the key). -/
def innermostValue (frames : List Ctx) (k : String) : Option String :=
  (frames.reverse.find? (fun m => (ctxGet m k).isSome)).bind (fun m => ctxGet m k)

/-- Key-level de-duplication step: keep the pair unless its key is the
reserved `"function"` or was already kept. -/
def dedupStep (seen : List (String × String)) (p : String × String) : List (String × String) :=
  if p.1 == "function" || seen.any (fun q => q.1 == p.1) then seen else seen ++ [p]

/-- Key-level de-duplication of a pair sequence, first occurrence winning. -/
def dedupPairs (seen : List (String × String)) (l : List (String × String)) :
    List (String × String) :=
  l.foldl dedupStep seen

/-- Render pairs as `key=value` parts. -/
def renderPairs (l : List (String × String)) : List String :=
  l.map (fun p => p.1 ++ "=" ++ p.2)

/-- The pair sequence the two stacks present to the string renderer: async
frames innermost first, then sync frames innermost first, each frame's
pairs in iteration order. -/
def stackPairs (s : EngineState) : List (String × String) :=
  (s.asyncStack.reverse ++ s.syncStack.reverse).flatten

/-- A key that does not contain the character `'='`. -/
def eqFreeKey (k : String) : Prop :=
  '=' ∉ k.data

instance (k : String) : Decidable (eqFreeKey k) := by
  unfold eqFreeKey; infer_instance

/-- Invariant of the de-duplicated pair list: every kept key is free of
`'='` and is not the reserved `"function"`. -/
def goodSeen (seen : List (String × String)) : Prop :=
  ∀ q ∈ seen, eqFreeKey q.1 ∧ q.1 ≠ "function"

/-- Whether a frame has a field other than the reserved `"function"`. -/
def hasNonFunctionField (m : Ctx) : Bool :=
  m.any (fun p => !(p.1 == "function"))

/-- A frame's fields minus the reserved `"function"` key. -/
def nonFunctionFields (m : Ctx) : Ctx :=
  m.filter (fun p => !(p.1 == "function"))

/-! ## Basic lemmas on the map model -/

@[simp]
theorem ctxGet_nil (k : String) : ctxGet [] k = none := rfl

@[simp]
theorem ctxGet_cons (k0 v0 : String) (m : Ctx) (k : String) :
    ctxGet ((k0, v0) :: m) k = if k0 = k then some v0 else ctxGet m k := rfl

theorem ctxGet_append (m1 m2 : Ctx) (k : String) :
    ctxGet (m1 ++ m2) k =
      match ctxGet m1 k with
      | some v => some v
      | none => ctxGet m2 k := by
  induction m1 with
  | nil => simp
  | cons p m1 ih =>
    obtain ⟨k0, v0⟩ := p
    by_cases h : k0 = k <;> simp [h, ih]

theorem ctxGet_filter_ne (m : Ctx) (k0 k : String) :
    ctxGet (m.filter (fun p => !(p.1 == k0))) k =
      if k = k0 then none else ctxGet m k := by
  induction m with
  | nil => simp
  | cons p m ih =>
    obtain ⟨k1, v1⟩ := p
    by_cases h1 : k1 = k0
    · rw [List.filter_cons_of_neg (by simp [h1]), ih]
      by_cases h2 : k = k0
      · simp [h2]
      · have h3 : k1 ≠ k := fun hc => h2 ((hc.symm.trans h1))
        simp [h2, h3]
    · rw [List.filter_cons_of_pos (by simp [h1])]
      by_cases h3 : k1 = k
      · have h2 : k ≠ k0 := fun hc => h1 (h3.trans hc)
        simp [h2, h3]
      · by_cases h2 : k = k0
        · subst h2; simp [h1, h3, ih]
        · simp [h2, h3, ih]

theorem ctxGet_ctxInsert (m : Ctx) (k0 v0 k : String) :
    ctxGet (ctxInsert m k0 v0) k = if k = k0 then some v0 else ctxGet m k := by
  unfold ctxInsert
  rw [ctxGet_append, ctxGet_filter_ne]
  by_cases h : k = k0
  · simp [h]
  · have h' : k0 ≠ k := fun hc => h hc.symm
    cases hm : ctxGet m k <;> simp [h, h', hm]

theorem ctxGet_eq_none_iff (m : Ctx) (k : String) :
    ctxGet m k = none ↔ ∀ p ∈ m, p.1 ≠ k := by
  induction m with
  | nil => simp
  | cons p m ih =>
    obtain ⟨k1, v1⟩ := p
    by_cases h : k1 = k <;> simp [h, ih]

theorem ctxGet_reverse_of_nodup (m : Ctx) (k : String) (h : keysNodup m) :
    ctxGet m.reverse k = ctxGet m k := by
  induction m with
  | nil => rfl
  | cons p m ih =>
    obtain ⟨k0, v0⟩ := p
    have hn : k0 ∉ m.map Prod.fst ∧ keysNodup m := by
      simpa [keysNodup, List.nodup_cons] using h
    rw [List.reverse_cons, ctxGet_append, ih hn.2]
    by_cases hk : k0 = k
    · have hnone : ctxGet m k = none := by
        rw [ctxGet_eq_none_iff]
        intro p hp hc
        exact hn.1 (hk ▸ hc ▸ List.mem_map_of_mem Prod.fst hp)
      simp [hnone, hk]
    · cases hm : ctxGet m k <;> simp [hk, hm]

theorem ctxGet_ctxExtend (a m : Ctx) (k : String) :
    ctxGet (ctxExtend a m) k =
      match ctxGet m.reverse k with
      | some v => some v
      | none => ctxGet a k := by
  induction m generalizing a with
  | nil => simp [ctxExtend]
  | cons p m ih =>
    obtain ⟨k0, v0⟩ := p
    have step : ctxExtend a ((k0, v0) :: m) = ctxExtend (ctxInsert a k0 v0) m := rfl
    rw [step, ih, List.reverse_cons, ctxGet_append]
    cases hm : ctxGet m.reverse k
    · rw [ctxGet_ctxInsert]
      by_cases hk : k = k0
      · simp [hk]
      · have hk' : k0 ≠ k := fun hc => hk hc.symm
        simp [hk, hk']
    · rfl

/-! ## Lemmas on the frame-scanning loop -/

theorem scanFrames_nil (k : String) : scanFrames k [] = none := rfl

theorem scanFrames_cons (k : String) (m : Ctx) (rest : List Ctx) :
    scanFrames k (m :: rest) =
      match ctxGet m k with
      | some v => some v
      | none => scanFrames k rest := rfl

theorem scanFrames_append (k : String) (l1 l2 : List Ctx) :
    scanFrames k (l1 ++ l2) =
      match scanFrames k l1 with
      | some v => some v
      | none => scanFrames k l2 := by
  induction l1 with
  | nil => simp [scanFrames_nil]
  | cons m l1 ih =>
    rw [List.cons_append, scanFrames_cons, scanFrames_cons]
    cases hm : ctxGet m k <;> simp [ih]

theorem foldExtend_get (frames : List Ctx) (a : Ctx) (k : String)
    (h : ∀ m ∈ frames, keysNodup m) :
    ctxGet (frames.foldl ctxExtend a) k =
      match scanFrames k frames.reverse with
      | some v => some v
      | none => ctxGet a k := by
  induction frames generalizing a with
  | nil => simp [scanFrames_nil]
  | cons m rest ih =>
    have hm : keysNodup m := h m (List.mem_cons_self m rest)
    have hrest : ∀ m' ∈ rest, keysNodup m' := fun m' hm' => h m' (List.mem_cons_of_mem m hm')
    rw [List.foldl_cons, ih (ctxExtend a m) hrest, List.reverse_cons, scanFrames_append]
    cases hs : scanFrames k rest.reverse
    · rw [ctxGet_ctxExtend, ctxGet_reverse_of_nodup m k hm, scanFrames_cons, scanFrames_nil]
      cases hg : ctxGet m k <;> rfl
    · rfl

/-- The fold of all frames bottom-to-top read at one key agrees with the
innermost-first short-circuiting scan (frames with real-`HashMap` keys). -/
theorem fold_get_eq_scan (frames : List Ctx) (k : String)
    (h : ∀ m ∈ frames, keysNodup m) :
    ctxGet (frames.foldl ctxExtend []) k = scanFrames k frames.reverse := by
  rw [foldExtend_get frames [] k h]
  cases hs : scanFrames k frames.reverse <;> rfl

/-- The scanning loop returns exactly the innermost frame's value:
it agrees with "find the first frame defining the key, read it there". -/
theorem scanFrames_eq_find (k : String) (l : List Ctx) :
    scanFrames k l = (l.find? (fun m => (ctxGet m k).isSome)).bind (fun m => ctxGet m k) := by
  induction l with
  | nil => rfl
  | cons m rest ih =>
    rw [scanFrames_cons]
    cases hm : ctxGet m k
    · simp [List.find?_cons, hm, ih]
    · simp [List.find?_cons, hm]

theorem innermostValue_eq_scan (frames : List Ctx) (k : String) :
    innermostValue frames k = scanFrames k frames.reverse := by
  rw [innermostValue, scanFrames_eq_find]

/-! ## Nodup preservation and global-store lemmas -/

theorem keysNodup_nil : keysNodup ([] : Ctx) := by
  simp [keysNodup]

theorem keysNodup_ctxInsert (m : Ctx) (k v : String) (h : keysNodup m) :
    keysNodup (ctxInsert m k v) := by
  unfold ctxInsert keysNodup
  rw [List.map_append, List.nodup_append]
  refine ⟨?_, by simp, ?_⟩
  · exact List.Nodup.sublist (List.Sublist.map Prod.fst (List.filter_sublist m)) h
  · intro x hx
    simp only [List.mem_map, List.mem_filter] at hx
    obtain ⟨q, ⟨_, hq⟩, hfst⟩ := hx
    simp only [List.map_cons, List.map_nil, List.mem_singleton]
    intro hc
    rw [hc] at hfst
    simp at hq
    exact hq hfst

theorem keysNodup_ctxExtend (a m : Ctx) (h : keysNodup a) :
    keysNodup (ctxExtend a m) := by
  induction m generalizing a with
  | nil => exact h
  | cons p m ih => exact ih _ (keysNodup_ctxInsert _ _ _ h)

theorem keysNodup_foldExtend (frames : List Ctx) (a : Ctx) (h : keysNodup a) :
    keysNodup (frames.foldl ctxExtend a) := by
  induction frames generalizing a with
  | nil => exact h
  | cons m rest ih => exact ih _ (keysNodup_ctxExtend _ _ h)

theorem popsFold_global (ops : List Bool) (st : EngineState) :
    (ops.foldl (fun t b => if b then contextGuardDrop t else asyncContextGuardDrop t) st).global
      = st.global := by
  induction ops generalizing st with
  | nil => rfl
  | cons b ops ih =>
    rw [List.foldl_cons, ih]
    cases b <;> rfl

theorem foldSet_global_get (m : Ctx) : ∀ (st : EngineState) (k : String),
    keysNodup m → st.poisoned = false →
    ctxGet ((m.foldl (fun t p => set_global_context t p.1 p.2) st).global) k =
      match ctxGet m k with
      | some v => some v
      | none => ctxGet st.global k := by
  induction m with
  | nil => intro st k _ _; rfl
  | cons p m ih =>
    intro st k hm hp
    obtain ⟨k0, v0⟩ := p
    have hn : k0 ∉ m.map Prod.fst ∧ keysNodup m := by
      simpa [keysNodup, List.nodup_cons] using hm
    have hp' : (set_global_context st k0 v0).poisoned = false := by
      simp [set_global_context, hp]
    rw [List.foldl_cons, ih (set_global_context st k0 v0) k hn.2 hp']
    have hset : (set_global_context st k0 v0).global = ctxInsert st.global k0 v0 := by
      simp [set_global_context, hp]
    rw [hset, ctxGet_ctxInsert]
    by_cases hk : k0 = k
    · subst hk
      have hnone : ctxGet m k0 = none := by
        rw [ctxGet_eq_none_iff]
        intro q hq hc
        exact hn.1 (hc ▸ List.mem_map_of_mem Prod.fst hq)
      simp [hnone]
    · have hk' : ¬ k = k0 := fun hc => hk hc.symm
      cases hcm : ctxGet m k <;> simp [hk, hk', hcm]

/-! ## Claim theorems -/

/-- C5: short-circuiting single-key lookup agrees with the full merge — for
every sequence of frames in one stack and every key, scanning the frames
from innermost to outermost and returning the first frame's value for that
key (`innermostValue`) yields exactly the same result as folding all frames
bottom-to-top with later frames overwriting earlier ones and then looking
the key up in the folded map (last-pushed wins in both). -/
theorem scan_agrees_with_fold (frames : List Ctx) (k : String)
    (h : ∀ m ∈ frames, keysNodup m) :
    innermostValue frames k = ctxGet (frames.foldl ctxExtend []) k := by
  rw [innermostValue_eq_scan, fold_get_eq_scan frames k h]

theorem scan_agrees_with_fold_witness :
    innermostValue [[("x", "1")], [("x", "2"), ("y", "3")]] "x" =
      ctxGet ([[("x", "1")], [("x", "2"), ("y", "3")]].foldl ctxExtend []) "x" :=
  scan_agrees_with_fold [[("x", "1")], [("x", "2"), ("y", "3")]] "x" (by decide)

/-- C6: push and guard-drop are a perfect inverse pair — after `push_context`
(resp. `push_async_context`) of a context `c`, every key of `c` resolves on
that stack to `c`'s value; dropping the returned guard restores the exact
prior engine state, so a lookup returns the value it had before the push,
including absence. -/
theorem push_drop_inverse (s : EngineState) (c : Ctx) (k v : String)
    (h : ctxGet c k = some v) :
    scanFrames k (push_context s c).syncStack.reverse = some v ∧
    contextGuardDrop (push_context s c) = s ∧
    scanFrames k (contextGuardDrop (push_context s c)).syncStack.reverse
      = scanFrames k s.syncStack.reverse ∧
    scanFrames k (push_async_context s c).asyncStack.reverse = some v ∧
    asyncContextGuardDrop (push_async_context s c) = s ∧
    scanFrames k (asyncContextGuardDrop (push_async_context s c)).asyncStack.reverse
      = scanFrames k s.asyncStack.reverse := by
  obtain ⟨a, ss, g, p⟩ := s
  have hsync : contextGuardDrop (push_context (EngineState.mk a ss g p) c)
      = EngineState.mk a ss g p := by
    simp [contextGuardDrop, push_context]
  have hasync : asyncContextGuardDrop (push_async_context (EngineState.mk a ss g p) c)
      = EngineState.mk a ss g p := by
    simp [asyncContextGuardDrop, push_async_context]
  refine ⟨?_, hsync, by rw [hsync], ?_, hasync, by rw [hasync]⟩
  · simp [push_context, scanFrames_append, scanFrames_cons, h]
  · simp [push_async_context, scanFrames_append, scanFrames_cons, h]

theorem push_drop_inverse_witness :
    scanFrames "t"
        (push_context (EngineState.mk [] [[("t", "old")]] [] false) [("t", "new")]).syncStack.reverse
      = some "new" ∧
    contextGuardDrop
        (push_context (EngineState.mk [] [[("t", "old")]] [] false) [("t", "new")])
      = EngineState.mk [] [[("t", "old")]] [] false :=
  ⟨(push_drop_inverse (EngineState.mk [] [[("t", "old")]] [] false)
      [("t", "new")] "t" "new" (by decide)).1,
   (push_drop_inverse (EngineState.mk [] [[("t", "old")]] [] false)
      [("t", "new")] "t" "new" (by decide)).2.1⟩

/-- C7: popping an empty stack is a total no-op — dropping a sync or async
guard while its stack is empty leaves the state unchanged (the embedding of
`Vec::pop` is total, so nothing fails), and on an empty engine two
consecutive pops leave the effective context empty. -/
theorem pop_empty_noop (s : EngineState) :
    (s.syncStack = [] → contextGuardDrop s = s) ∧
    (s.asyncStack = [] → asyncContextGuardDrop s = s) ∧
    (s.syncStack = [] → s.asyncStack = [] →
      get_context (contextGuardDrop (contextGuardDrop s)) = [] ∧
      get_async_context (contextGuardDrop (contextGuardDrop s)) = [] ∧
      get_context (asyncContextGuardDrop (asyncContextGuardDrop s)) = [] ∧
      get_async_context (asyncContextGuardDrop (asyncContextGuardDrop s)) = []) := by
  obtain ⟨a, ss, g, p⟩ := s
  refine ⟨?_, ?_, ?_⟩
  · intro h; simp only at h; subst h; rfl
  · intro h; simp only at h; subst h; rfl
  · intro h1 h2
    simp only at h1 h2
    subst h1; subst h2
    exact ⟨rfl, rfl, rfl, rfl⟩

theorem pop_empty_noop_witness :
    contextGuardDrop (EngineState.mk [] [] [("g", "w")] false)
      = EngineState.mk [] [] [("g", "w")] false ∧
    get_context (contextGuardDrop (contextGuardDrop (EngineState.mk [] [] [("g", "w")] false)))
      = [] :=
  ⟨(pop_empty_noop (EngineState.mk [] [] [("g", "w")] false)).1 rfl,
   ((pop_empty_noop (EngineState.mk [] [] [("g", "w")] false)).2.2 rfl rfl).1⟩

/-- C8: the global store degrades silently on lock failure and distinguishes
emptiness in snapshots — when the lock is poisoned, `set_global_context`
leaves the store unchanged and reads behave as if the store were empty
(no operation surfaces an error: every operation is total); with a usable
lock, `get_global_context` returns a copy of the map when it is non-empty
and `none` when it is empty. -/
theorem global_store_poison_and_snapshot (s : EngineState) (k v : String) :
    (s.poisoned = true →
      set_global_context s k v = s ∧
      globalLayerGet s k = none ∧
      get_global_context s = none) ∧
    (s.poisoned = false →
      (s.global = [] → get_global_context s = none) ∧
      (s.global ≠ [] → get_global_context s = some s.global)) := by
  obtain ⟨a, ss, g, p⟩ := s
  constructor
  · intro h
    simp only at h
    subst h
    exact ⟨rfl, rfl, rfl⟩
  · intro h
    simp only at h
    subst h
    constructor
    · intro hg; simp only at hg; subst hg; rfl
    · intro hg
      simp only at hg ⊢
      simp [get_global_context, List.isEmpty_iff, hg]

theorem global_store_poison_and_snapshot_witness :
    set_global_context (EngineState.mk [] [] [] true) "k" "v"
      = EngineState.mk [] [] [] true ∧
    get_global_context (EngineState.mk [] [] [("a", "1")] false)
      = some [("a", "1")] :=
  ⟨((global_store_poison_and_snapshot (EngineState.mk [] [] [] true) "k" "v").1 rfl).1,
   ((global_store_poison_and_snapshot (EngineState.mk [] [] [("a", "1")] false) "k" "v").2
      rfl).2 (by decide)⟩

/-- C3: single-key lookup resolves with precedence async stack, then sync
stack, then global store — `get_context_value` returns the innermost async
frame's value when one defines the key, otherwise the innermost sync
frame's value, otherwise the global store's value (read through the lock),
and `none` (an explicit absence, never an error) when no layer defines it. -/
theorem get_context_value_precedence (s : EngineState) (k : String) :
    (∀ v, innermostValue s.asyncStack k = some v → get_context_value s k = some v) ∧
    (innermostValue s.asyncStack k = none →
      ∀ v, innermostValue s.syncStack k = some v → get_context_value s k = some v) ∧
    (innermostValue s.asyncStack k = none → innermostValue s.syncStack k = none →
      get_context_value s k = globalLayerGet s k) ∧
    (innermostValue s.asyncStack k = none → innermostValue s.syncStack k = none →
      globalLayerGet s k = none → get_context_value s k = none) := by
  have ha := innermostValue_eq_scan s.asyncStack k
  have hs := innermostValue_eq_scan s.syncStack k
  refine ⟨?_, ?_, ?_, ?_⟩
  · intro v hv
    rw [ha] at hv
    simp [get_context_value, hv]
  · intro h0 v hv
    rw [ha] at h0
    rw [hs] at hv
    simp [get_context_value, h0, hv]
  · intro h0 h1
    rw [ha] at h0
    rw [hs] at h1
    simp [get_context_value, h0, h1]
  · intro h0 h1 h2
    rw [ha] at h0
    rw [hs] at h1
    simp [get_context_value, h0, h1, h2]

theorem get_context_value_precedence_witness :
    get_context_value
        (EngineState.mk [[("k", "async")]] [[("k", "sync")]] [("k", "global")] false) "k"
      = some "async" :=
  (get_context_value_precedence
      (EngineState.mk [[("k", "async")]] [[("k", "sync")]] [("k", "global")] false) "k").1
    "async" (by decide)

/-- C1 counterexample: the context attached to log events (`get_context`,
as passed by the `info!`-family macros) does not merge all three layers.
In the state whose async stack holds the single frame `k ↦ v` and whose
global store holds `g ↦ w`, the async layer's innermost value for `k` is
`v` and the global store's value for `g` is `w`, yet the map attached to a
log event binds neither key. -/
theorem log_event_context_ignores_async_and_global_cex :
    innermostValue (EngineState.mk [[("k", "v")]] [] [("g", "w")] false).asyncStack "k"
      = some "v" ∧
    ctxGet (EngineState.mk [[("k", "v")]] [] [("g", "w")] false).global "g" = some "w" ∧
    ctxGet (get_context (EngineState.mk [[("k", "v")]] [] [("g", "w")] false)) "k" = none ∧
    ctxGet (get_context (EngineState.mk [[("k", "v")]] [] [("g", "w")] false)) "g" = none := by
  refine ⟨rfl, ?_, rfl, rfl⟩
  simp [ctxGet]

/-- C1 (amended): the context attached to every log event (`get_context`)
is the merged view of the sync stack alone — it binds each key to the sync
layer's innermost value and binds no other keys, and it is independent of
the async stack and the global store. -/
theorem log_event_context_is_sync_merge (s : EngineState) (k : String)
    (h : ∀ m ∈ s.syncStack, keysNodup m) :
    ctxGet (get_context s) k = innermostValue s.syncStack k ∧
    ∀ a g p, get_context (EngineState.mk a s.syncStack g p) = get_context s := by
  constructor
  · rw [innermostValue_eq_scan, get_context, fold_get_eq_scan _ _ h]
  · intro a g p; rfl

theorem log_event_context_is_sync_merge_witness :
    ctxGet (get_context (EngineState.mk [] [[("t", "1")], [("t", "2")]] [] false)) "t"
      = innermostValue [[("t", "1")], [("t", "2")]] "t" :=
  (log_event_context_is_sync_merge
      (EngineState.mk [] [[("t", "1")], [("t", "2")]] [] false) "t" (by decide)).1

/-- C2 (code bug, evaluated): in the state whose sync stack holds the single
frame `k ↦ v`, `auto_capture_context` returns with the engine state exactly
as before the call — the frames it pushed onto both stacks were already
popped when its local guards `_async_guard` and `_sync_guard` dropped at
function exit — so the captured key is not resolvable on the async stack
after the call; and dropping the `ContextGuard` the call returned pops the
pre-existing sync frame, leaving the sync stack empty instead of restored.
`capture_context` has the same guard lifetime slip (only its global-store
writes survive the call). -/
theorem capture_guard_bug_eval :
    auto_capture_context (EngineState.mk [] [[("k", "v")]] [] false)
      = EngineState.mk [] [[("k", "v")]] [] false ∧
    innermostValue
        (auto_capture_context (EngineState.mk [] [[("k", "v")]] [] false)).asyncStack "k"
      = none ∧
    (contextGuardDrop (auto_capture_context (EngineState.mk [] [[("k", "v")]] [] false))).syncStack
      = [] ∧
    (capture_context (EngineState.mk [] [[("k", "v")]] [] false)).asyncStack = [] ∧
    (capture_context (EngineState.mk [] [[("k", "v")]] [] false)).syncStack
      = [[("k", "v")]] ∧
    (contextGuardDrop (capture_context (EngineState.mk [] [[("k", "v")]] [] false))).syncStack
      = [] := by
  refine ⟨?_, rfl, rfl, rfl, ?_, rfl⟩ <;> rfl

/-- C4: `capture_context` computes the union of the async-stack merge and
the sync-stack merge with the sync value winning on any key conflict
(`ctxExtend (get_async_context s) (get_context s)`), and publishes every
key-value pair of that union into the global store; thereafter the global
store returns the published value, and it continues to do so after any
sequence of sync or async guard drops — stack pops never remove global
entries. -/
theorem capture_context_publishes_globally (s : EngineState) (k v : String)
    (hp : s.poisoned = false)
    (hkv : ctxGet (ctxExtend (get_async_context s) (get_context s)) k = some v) :
    ctxGet (capture_context s).global k = some v ∧
    ∀ pops : List Bool,
      (pops.foldl (fun t b => if b then contextGuardDrop t else asyncContextGuardDrop t)
        (capture_context s)).global = (capture_context s).global := by
  constructor
  · have hnd : keysNodup (ctxExtend (get_async_context s) (get_context s)) :=
      keysNodup_ctxExtend _ _ (keysNodup_foldExtend _ _ keysNodup_nil)
    have hcap : (capture_context s).global
        = ((ctxExtend (get_async_context s) (get_context s)).foldl
            (fun t p => set_global_context t p.1 p.2) s).global := rfl
    rw [hcap, foldSet_global_get _ s k hnd hp, hkv]
  · exact fun pops => popsFold_global pops _

theorem capture_context_publishes_globally_witness :
    ctxGet (capture_context
        (EngineState.mk [[("a", "0")]] [[("a", "1"), ("b", "2")]] [] false)).global "a"
      = some "1" ∧
    ([true, false, true].foldl
        (fun t b => if b then contextGuardDrop t else asyncContextGuardDrop t)
        (capture_context (EngineState.mk [[("a", "0")]] [[("a", "1"), ("b", "2")]] [] false))).global
      = (capture_context (EngineState.mk [[("a", "0")]] [[("a", "1"), ("b", "2")]] [] false)).global :=
  ⟨(capture_context_publishes_globally
      (EngineState.mk [[("a", "0")]] [[("a", "1"), ("b", "2")]] [] false) "a" "1" rfl
      (by decide)).1,
   (capture_context_publishes_globally
      (EngineState.mk [[("a", "0")]] [[("a", "1"), ("b", "2")]] [] false) "a" "1" rfl
      (by decide)).2 [true, false, true]⟩

/-! ## Lemmas for the inherited-fields map -/

theorem frameFields_eq_append (m : Ctx) : ∀ (acc : Ctx),
    keysNodup m → (∀ p ∈ m, ∀ q ∈ acc, q.1 ≠ p.1) →
    frameFields acc m = acc ++ nonFunctionFields m := by
  induction m with
  | nil => intro acc _ _; simp [frameFields, nonFunctionFields]
  | cons p m ih =>
    intro acc hm hdisj
    obtain ⟨k0, v0⟩ := p
    have hn : k0 ∉ m.map Prod.fst ∧ keysNodup m := by
      simpa [keysNodup, List.nodup_cons] using hm
    by_cases hf : k0 = "function"
    · have step : frameFields acc ((k0, v0) :: m) = frameFields acc m := by
        simp [frameFields, List.foldl_cons, hf]
      rw [step, ih acc hn.2 (fun p hp => hdisj p (List.mem_cons_of_mem _ hp))]
      simp [nonFunctionFields, List.filter_cons, hf]
    · have hins : ctxInsert acc k0 v0 = acc ++ [(k0, v0)] := by
        unfold ctxInsert
        congr 1
        rw [List.filter_eq_self]
        intro q hq
        simpa using hdisj (k0, v0) (List.mem_cons_self _ _) q hq
      have step : frameFields acc ((k0, v0) :: m)
          = frameFields (acc ++ [(k0, v0)]) m := by
        simp [frameFields, List.foldl_cons, hf, hins]
      have hd : ∀ p ∈ m, ∀ q ∈ acc ++ [(k0, v0)], q.1 ≠ p.1 := by
        intro p hp q hq
        rcases List.mem_append.mp hq with hq | hq
        · exact hdisj p (List.mem_cons_of_mem _ hp) q hq
        · simp only [List.mem_singleton] at hq
          subst hq
          intro hc
          apply hn.1
          rw [show k0 = p.1 from hc]
          exact List.mem_map_of_mem Prod.fst hp
      rw [step, ih (acc ++ [(k0, v0)]) hn.2 hd]
      simp [nonFunctionFields, List.filter_cons, hf]

theorem nonFunctionFields_nil_iff (m : Ctx) :
    nonFunctionFields m = [] ↔ hasNonFunctionField m = false := by
  simp [nonFunctionFields, hasNonFunctionField, List.filter_eq_nil_iff, List.any_eq_false]

theorem fieldsScan_characterize (frames : List Ctx) (h : ∀ m ∈ frames, keysNodup m) :
    fieldsScan [] frames =
      match frames.find? hasNonFunctionField with
      | some m => nonFunctionFields m
      | none => [] := by
  induction frames with
  | nil => rfl
  | cons m rest ih =>
    have hm : keysNodup m := h m (List.mem_cons_self _ _)
    have hrest : ∀ m' ∈ rest, keysNodup m' := fun m' hm' => h m' (List.mem_cons_of_mem _ hm')
    have hf : frameFields [] m = nonFunctionFields m := by
      simpa using frameFields_eq_append m [] hm (by intro p _ q hq; simp at hq)
    by_cases hne : nonFunctionFields m = []
    · have hpred : hasNonFunctionField m = false := (nonFunctionFields_nil_iff m).mp hne
      simp [fieldsScan, hf, hne, List.find?_cons, hpred, ih hrest]
    · have hpred : hasNonFunctionField m = true := by
        cases hb : hasNonFunctionField m
        · exact absurd ((nonFunctionFields_nil_iff m).mpr hb) hne
        · rfl
      simp [fieldsScan, hf, hne, List.find?_cons, hpred]

/-- C10: `get_inherited_fields_map` returns exactly the non-`"function"`
fields of the innermost async frame whose non-`"function"` field set is
non-empty; outer async frames are never merged in, the sync stack is
consulted (same innermost-non-empty rule) only when no async frame
qualifies, and the global store (and the poisoned flag) is never consulted,
so a key defined only in an outer frame or only globally is absent from the
result. -/
theorem inherited_fields_innermost_frame (s : EngineState)
    (hA : ∀ m ∈ s.asyncStack, keysNodup m)
    (hS : ∀ m ∈ s.syncStack, keysNodup m) :
    get_inherited_fields_map s =
      (match s.asyncStack.reverse.find? hasNonFunctionField with
       | some m => nonFunctionFields m
       | none =>
         match s.syncStack.reverse.find? hasNonFunctionField with
         | some m => nonFunctionFields m
         | none => []) ∧
    ∀ g p, get_inherited_fields_map (EngineState.mk s.asyncStack s.syncStack g p)
      = get_inherited_fields_map s := by
  constructor
  · have hA' : ∀ m ∈ s.asyncStack.reverse, keysNodup m :=
      fun m hm => hA m (List.mem_reverse.mp hm)
    have hS' : ∀ m ∈ s.syncStack.reverse, keysNodup m :=
      fun m hm => hS m (List.mem_reverse.mp hm)
    simp only [get_inherited_fields_map]
    rw [fieldsScan_characterize _ hA']
    cases hfind : s.asyncStack.reverse.find? hasNonFunctionField with
    | none => simp [fieldsScan_characterize _ hS']
    | some m =>
      have hpred : hasNonFunctionField m = true := List.find?_some hfind
      have hne : nonFunctionFields m ≠ [] := by
        intro hc
        rw [(nonFunctionFields_nil_iff m).mp hc] at hpred
        exact Bool.false_ne_true hpred
      simp [hne, List.isEmpty_iff]
  · intro g p; rfl

theorem inherited_fields_innermost_frame_witness :
    get_inherited_fields_map
        (EngineState.mk [[("o", "outer")], [("function", "f"), ("u", "1")]]
          [[("s", "9")]] [("g", "0")] false)
      = (match
          ([[("o", "outer")], [("function", "f"), ("u", "1")]] : List Ctx).reverse.find?
            hasNonFunctionField with
         | some m => nonFunctionFields m
         | none =>
           match ([[("s", "9")]] : List Ctx).reverse.find? hasNonFunctionField with
           | some m => nonFunctionFields m
           | none => []) :=
  (inherited_fields_innermost_frame
      (EngineState.mk [[("o", "outer")], [("function", "f"), ("u", "1")]]
        [[("s", "9")]] [("g", "0")] false)
      (by decide) (by decide)).1

/-! ## Lemmas for the inherited-context string -/

theorem charsStartWith_key (k1 : List Char) : ∀ (k2 v2 : List Char),
    '=' ∉ k1 → '=' ∉ k2 →
    (charsStartWith (k1 ++ ['=']) (k2 ++ '=' :: v2) = true ↔ k1 = k2) := by
  induction k1 with
  | nil =>
    intro k2 v2 _ h2
    cases k2 with
    | nil => simp [charsStartWith]
    | cons c k2 =>
      have hc : ¬ ('=' = c) := by
        intro h
        exact h2 (h ▸ List.mem_cons_self c k2)
      simp [charsStartWith, hc]
  | cons a k1 ih =>
    intro k2 v2 h1 h2
    have ha : ¬ (a = '=') := fun h => h1 (h ▸ List.mem_cons_self a k1)
    have h1' : '=' ∉ k1 := fun h => h1 (List.mem_cons_of_mem a h)
    cases k2 with
    | nil => simp [charsStartWith, ha]
    | cons b k2 =>
      have h2' : '=' ∉ k2 := fun h => h2 (List.mem_cons_of_mem b h)
      simp [charsStartWith, ih k2 v2 h1' h2', Bool.and_eq_true, beq_iff_eq]

theorem startsWithStr_part (k1 : String) (q : String × String)
    (h1 : eqFreeKey k1) (h2 : eqFreeKey q.1) :
    (startsWithStr (q.1 ++ "=" ++ q.2) (k1 ++ "=") = true ↔ k1 = q.1) := by
  unfold startsWithStr
  have e1 : (k1 ++ "=").data = k1.data ++ ['='] := by
    rw [String.data_append]
  have e2 : (q.1 ++ "=" ++ q.2).data = q.1.data ++ '=' :: q.2.data := by
    rw [String.data_append, String.data_append]
    simp
  rw [e1, e2, charsStartWith_key k1.data q.1.data q.2.data h1 h2]
  exact (String.ext_iff).symm

theorem renderPairs_nil : renderPairs [] = [] := rfl

theorem renderPairs_cons (q : String × String) (l : List (String × String)) :
    renderPairs (q :: l) = (q.1 ++ "=" ++ q.2) :: renderPairs l := rfl

theorem renderPairs_isEmpty (l : List (String × String)) :
    (renderPairs l).isEmpty = l.isEmpty := by
  cases l <;> rfl

theorem renderedAny_eq (seen : List (String × String)) (k : String)
    (hk : eqFreeKey k) (hg : goodSeen seen) :
    (renderPairs seen).any (fun p => startsWithStr p (k ++ "="))
      = seen.any (fun q => q.1 == k) := by
  induction seen with
  | nil => rfl
  | cons q seen ih =>
    have hq := hg q (List.mem_cons_self _ _)
    have hg' : goodSeen seen := fun r hr => hg r (List.mem_cons_of_mem _ hr)
    rw [renderPairs_cons, List.any_cons, List.any_cons, ih hg']
    have hhead : startsWithStr (q.1 ++ "=" ++ q.2) (k ++ "=") = (q.1 == k) := by
      cases hb : (q.1 == k) with
      | false =>
        cases hsw : startsWithStr (q.1 ++ "=" ++ q.2) (k ++ "=") with
        | false => rfl
        | true =>
          have hkq : k = q.1 := (startsWithStr_part k q hk hq.1).mp hsw
          rw [hkq] at hb
          simp at hb
      | true =>
        have : k = q.1 := by
          rw [beq_iff_eq] at hb
          exact hb.symm
        exact (startsWithStr_part k q hk hq.1).mpr this
    rw [hhead]

theorem addPart_render (seen : List (String × String)) (k v : String)
    (hk : eqFreeKey k) (hg : goodSeen seen) :
    addPart (renderPairs seen) k v = renderPairs (dedupStep seen (k, v)) := by
  unfold addPart dedupStep
  by_cases hf : k = "function"
  · simp [hf]
  · have hbf : (k == "function") = false := by simp [hf]
    simp only [if_neg hf, hbf, Bool.false_or]
    rw [renderedAny_eq seen k hk hg]
    cases hany : seen.any (fun q => q.1 == k) with
    | false => simp [renderPairs]
    | true => simp

theorem goodSeen_dedupStep (seen : List (String × String)) (p : String × String)
    (hp : eqFreeKey p.1) (hg : goodSeen seen) :
    goodSeen (dedupStep seen p) := by
  by_cases hc : (p.1 == "function" || seen.any (fun q => q.1 == p.1)) = true
  · simpa [dedupStep, hc] using hg
  · intro q hq
    simp only [dedupStep, if_neg hc] at hq
    rcases List.mem_append.mp hq with h | h
    · exact hg q h
    · simp only [List.mem_singleton] at h
      subst h
      refine ⟨hp, ?_⟩
      intro hfn
      apply hc
      simp [hfn]

theorem goodSeen_dedupPairs (l : List (String × String)) : ∀ seen,
    (∀ p ∈ l, eqFreeKey p.1) → goodSeen seen → goodSeen (dedupPairs seen l) := by
  induction l with
  | nil => intro seen _ hg; exact hg
  | cons p l ih =>
    intro seen hl hg
    exact ih (dedupStep seen p)
      (fun q hq => hl q (List.mem_cons_of_mem _ hq))
      (goodSeen_dedupStep seen p (hl p (List.mem_cons_self _ _)) hg)

theorem frameFold_render (m : List (String × String)) : ∀ seen,
    (∀ p ∈ m, eqFreeKey p.1) → goodSeen seen →
    m.foldl (fun a p => addPart a p.1 p.2) (renderPairs seen)
      = renderPairs (m.foldl dedupStep seen) := by
  induction m with
  | nil => intro seen _ _; rfl
  | cons p m ih =>
    intro seen hm hg
    obtain ⟨k, v⟩ := p
    have hp : eqFreeKey k := hm (k, v) (List.mem_cons_self _ _)
    rw [List.foldl_cons, List.foldl_cons]
    have hstep : addPart (renderPairs seen) (k, v).1 (k, v).2
        = renderPairs (dedupStep seen (k, v)) :=
      addPart_render seen k v hp hg
    rw [hstep]
    exact ih (dedupStep seen (k, v))
      (fun q hq => hm q (List.mem_cons_of_mem _ hq))
      (goodSeen_dedupStep seen (k, v) hp hg)

theorem stackParts_nil (ps : List String) : stackParts ps [] = ps := rfl

theorem stackParts_cons (ps : List String) (m : Ctx) (frames : List Ctx) :
    stackParts ps (m :: frames)
      = stackParts (m.foldl (fun a p => addPart a p.1 p.2) ps) frames := rfl

theorem stackParts_render (frames : List Ctx) : ∀ seen,
    (∀ m ∈ frames, ∀ p ∈ m, eqFreeKey p.1) → goodSeen seen →
    stackParts (renderPairs seen) frames = renderPairs (dedupPairs seen frames.flatten) := by
  induction frames with
  | nil => intro seen _ _; rfl
  | cons m frames ih =>
    intro seen h hg
    have hm : ∀ p ∈ m, eqFreeKey p.1 := h m (List.mem_cons_self _ _)
    rw [stackParts_cons, frameFold_render m seen hm hg]
    have hg' : goodSeen (m.foldl dedupStep seen) := goodSeen_dedupPairs m seen hm hg
    rw [ih (m.foldl dedupStep seen) (fun m' hm' => h m' (List.mem_cons_of_mem _ hm')) hg']
    have : dedupPairs seen ((m :: frames).flatten)
        = dedupPairs (m.foldl dedupStep seen) frames.flatten := by
      show (m ++ frames.flatten).foldl dedupStep seen = _
      rw [List.foldl_append]
      rfl
    rw [this]

theorem eqFree_flatten (frames : List Ctx)
    (h : ∀ m ∈ frames, ∀ p ∈ m, eqFreeKey p.1) :
    ∀ p ∈ frames.flatten, eqFreeKey p.1 := by
  intro p hp
  rw [List.mem_flatten] at hp
  obtain ⟨m, hm, hpm⟩ := hp
  exact h m hm p hpm

theorem inheritedParts_characterize (s : EngineState)
    (hA : ∀ m ∈ s.asyncStack, ∀ p ∈ m, eqFreeKey p.1)
    (hS : ∀ m ∈ s.syncStack, ∀ p ∈ m, eqFreeKey p.1) :
    inheritedParts s =
      if (dedupPairs [] (stackPairs s)).isEmpty then
        match get_global_context s with
        | some g => globalParts g
        | none => []
      else renderPairs (dedupPairs [] (stackPairs s)) := by
  have hA' : ∀ m ∈ s.asyncStack.reverse, ∀ p ∈ m, eqFreeKey p.1 :=
    fun m hm => hA m (List.mem_reverse.mp hm)
  have hS' : ∀ m ∈ s.syncStack.reverse, ∀ p ∈ m, eqFreeKey p.1 :=
    fun m hm => hS m (List.mem_reverse.mp hm)
  have h1 : stackParts [] s.asyncStack.reverse
      = renderPairs (dedupPairs [] s.asyncStack.reverse.flatten) :=
    stackParts_render s.asyncStack.reverse [] hA' (by intro q hq; simp at hq)
  have hgood : goodSeen (dedupPairs [] s.asyncStack.reverse.flatten) :=
    goodSeen_dedupPairs _ [] (eqFree_flatten _ hA') (by intro q hq; simp at hq)
  have h2 : stackParts (stackParts [] s.asyncStack.reverse) s.syncStack.reverse
      = renderPairs (dedupPairs [] (stackPairs s)) := by
    rw [h1, stackParts_render s.syncStack.reverse _ hS' hgood]
    have : dedupPairs (dedupPairs [] s.asyncStack.reverse.flatten) s.syncStack.reverse.flatten
        = dedupPairs [] (stackPairs s) := by
      rw [stackPairs, List.flatten_append]
      show _ = (s.asyncStack.reverse.flatten ++ s.syncStack.reverse.flatten).foldl dedupStep []
      rw [List.foldl_append]
      rfl
    rw [this]
  simp only [inheritedParts]
  rw [h2, renderPairs_isEmpty]

theorem globalParts_fold_mem (g : Ctx) : ∀ (acc : List String) (x : String),
    x ∈ g.foldl (fun acc p => if p.1 = "function" then acc else acc ++ [p.1 ++ "=" ++ p.2]) acc →
    x ∈ acc ∨ ∃ q, q ∈ g ∧ q.1 ≠ "function" ∧ x = q.1 ++ "=" ++ q.2 := by
  induction g with
  | nil => intro acc x h; exact Or.inl h
  | cons p g ih =>
    intro acc x h
    rw [List.foldl_cons] at h
    rcases ih (if p.1 = "function" then acc else acc ++ [p.1 ++ "=" ++ p.2]) x h with
      h' | ⟨q, hq, hqf, hx⟩
    · by_cases hf : p.1 = "function"
      · rw [if_pos hf] at h'
        exact Or.inl h'
      · rw [if_neg hf] at h'
        rcases List.mem_append.mp h' with h'' | h''
        · exact Or.inl h''
        · simp only [List.mem_singleton] at h''
          exact Or.inr ⟨p, List.mem_cons_self _ _, hf, h''⟩
    · exact Or.inr ⟨q, List.mem_cons_of_mem _ hq, hqf, hx⟩

theorem part_not_function (k v : String) (hk : eqFreeKey k) (hfn : k ≠ "function") :
    startsWithStr (k ++ "=" ++ v) "function=" = false := by
  have he : ("function=" : String) = "function" ++ "=" := rfl
  rw [he]
  cases hsw : startsWithStr (k ++ "=" ++ v) ("function" ++ "=") with
  | false => rfl
  | true =>
    have hk' : eqFreeKey ((k, v) : String × String).1 := hk
    have : "function" = k := (startsWithStr_part "function" (k, v) (by decide) hk').mp hsw
    exact absurd this.symm hfn

theorem eqFree_stackPairs (s : EngineState)
    (hA : ∀ m ∈ s.asyncStack, ∀ p ∈ m, eqFreeKey p.1)
    (hS : ∀ m ∈ s.syncStack, ∀ p ∈ m, eqFreeKey p.1) :
    ∀ p ∈ stackPairs s, eqFreeKey p.1 := by
  intro p hp
  rw [stackPairs, List.mem_flatten] at hp
  obtain ⟨m, hm, hpm⟩ := hp
  rcases List.mem_append.mp hm with hm' | hm'
  · exact hA m (List.mem_reverse.mp hm') p hpm
  · exact hS m (List.mem_reverse.mp hm') p hpm

/-- C9 counterexample: the inherited-context string is not a rendering of
the effective context.  In the state whose async stack holds `a ↦ 1` and
whose global store holds `b ↦ 2`, the effective context resolves `b` to
`2`, yet the rendered parts are exactly `["a=1"]` — the global binding is
omitted because the stacks already contributed a part.  And in the state
whose async stack holds the outer frame `a ↦ x` under the inner frame
`a=b ↦ c`, the effective context resolves `a` to `x`, yet the parts are
exactly `["a=b=c"]` — the key `a` is dropped because the de-duplication
check matches on the rendered prefix `a=`, which the part `a=b=c` also
has. -/
theorem inherited_string_rendering_cex :
    get_context_value (EngineState.mk [[("a", "1")]] [] [("b", "2")] false) "b"
      = some "2" ∧
    inheritedParts (EngineState.mk [[("a", "1")]] [] [("b", "2")] false) = ["a=1"] ∧
    get_inherited_context_string (EngineState.mk [[("a", "1")]] [] [("b", "2")] false)
      = "a=1" ∧
    get_context_value (EngineState.mk [[("a", "x")], [("a=b", "c")]] [] [] false) "a"
      = some "x" ∧
    inheritedParts (EngineState.mk [[("a", "x")], [("a=b", "c")]] [] [] false)
      = ["a=b=c"] := by
  decide

/-- C9 (amended): `get_inherited_context_string` is a pure function of the
two stacks and the global store, so any two calls on the same state return
the identical string; provided no key contains `'='`, the parts are the
`key=value` renderings of the key-deduplicated pair sequence drawn from
the async stack innermost-first then the sync stack innermost-first (each
key at most once, first — most specific — occurrence winning), the
reserved key `"function"` never appears, and the global store contributes
only when the stacks contribute no part at all, in which case its
non-`"function"` entries are rendered; keys bound only in the global store
are omitted whenever any stack part exists. -/
theorem inherited_string_rendering (s : EngineState)
    (hA : ∀ m ∈ s.asyncStack, ∀ p ∈ m, eqFreeKey p.1)
    (hS : ∀ m ∈ s.syncStack, ∀ p ∈ m, eqFreeKey p.1)
    (hG : ∀ p ∈ s.global, eqFreeKey p.1) :
    inheritedParts s =
      (if (dedupPairs [] (stackPairs s)).isEmpty then
        match get_global_context s with
        | some g => globalParts g
        | none => []
      else renderPairs (dedupPairs [] (stackPairs s))) ∧
    (∀ part ∈ inheritedParts s, startsWithStr part "function=" = false) ∧
    (∀ s2 : EngineState, s2.asyncStack = s.asyncStack → s2.syncStack = s.syncStack →
      s2.global = s.global → s2.poisoned = s.poisoned →
      get_inherited_context_string s2 = get_inherited_context_string s) := by
  refine ⟨inheritedParts_characterize s hA hS, ?_, ?_⟩
  · intro part hpart
    rw [inheritedParts_characterize s hA hS] at hpart
    by_cases hemp : (dedupPairs [] (stackPairs s)).isEmpty = true
    · rw [if_pos hemp] at hpart
      cases hgc : get_global_context s with
      | none =>
        rw [hgc] at hpart
        simp at hpart
      | some g =>
        rw [hgc] at hpart
        have hgeq : g = s.global := by
          unfold get_global_context at hgc
          by_cases hp : s.poisoned
          · rw [if_pos hp] at hgc
            exact absurd hgc (by simp)
          · rw [if_neg hp] at hgc
            by_cases he : s.global.isEmpty
            · rw [if_pos he] at hgc
              exact absurd hgc (by simp)
            · rw [if_neg he] at hgc
              exact (Option.some_inj.mp hgc).symm
        unfold globalParts at hpart
        rcases globalParts_fold_mem g [] part hpart with h | ⟨q, hq, hqf, hx⟩
        · simp at h
        · subst hx
          exact part_not_function q.1 q.2 (hG q (hgeq ▸ hq)) hqf
    · rw [if_neg hemp] at hpart
      have hgoodD : goodSeen (dedupPairs [] (stackPairs s)) :=
        goodSeen_dedupPairs _ [] (eqFree_stackPairs s hA hS) (by intro q hq; simp at hq)
      unfold renderPairs at hpart
      rcases List.mem_map.mp hpart with ⟨q, hq, hx⟩
      subst hx
      have hqd := hgoodD q hq
      exact part_not_function q.1 q.2 hqd.1 hqd.2
  · intro s2 h1 h2 h3 h4
    obtain ⟨a2, ss2, g2, p2⟩ := s2
    obtain ⟨a1, ss1, g1, p1⟩ := s
    simp only at h1 h2 h3 h4
    subst h1; subst h2; subst h3; subst h4
    rfl

theorem inherited_string_rendering_witness :
    inheritedParts (EngineState.mk [[("b", "2")], [("a", "1")]] [[("c", "3")]] [("z", "9")] false)
      = (if (dedupPairs []
            (stackPairs
              (EngineState.mk [[("b", "2")], [("a", "1")]] [[("c", "3")]] [("z", "9")] false))).isEmpty
        then
          match get_global_context
              (EngineState.mk [[("b", "2")], [("a", "1")]] [[("c", "3")]] [("z", "9")] false) with
          | some g => globalParts g
          | none => []
        else
          renderPairs (dedupPairs []
            (stackPairs
              (EngineState.mk [[("b", "2")], [("a", "1")]] [[("c", "3")]] [("z", "9")] false)))) :=
  (inherited_string_rendering
      (EngineState.mk [[("b", "2")], [("a", "1")]] [[("c", "3")]] [("z", "9")] false)
      (by decide) (by decide) (by decide)).1

end LogArgs
